import Mathlib

/-!
Verification of the `TokenList` class from
`src/packages/ckeditor5-engine/src/view/tokenlist.ts`.

The class stores the distinct whitespace-delimited tokens of a DOM attribute
value (for example a CSS class list) in a JavaScript `Set<string>`.  We embed
the `Set` as an insertion-ordered duplicate-free `List String`; `Set.add` is
the membership-guarded append `addToken`, `Set.delete` is `List.erase`.
`value.split(/\s+/)` is embedded as `jsSplitWS`, which splits a string at
maximal runs of JavaScript whitespace characters, keeping the empty fragments
produced at the ends exactly as the JavaScript `split` does.
-/

/-- Characters matched by the JavaScript regular-expression class `\s`. -/
def isJsSpace (c : Char) : Bool :=
  c = ' ' || c = '\t' || c = '\n' || c = '\u000B' || c = '\u000C' || c = '\r' ||
  c.toNat = 0xA0 || c.toNat = 0x1680 ||
  (0x2000 <= c.toNat && c.toNat <= 0x200A) ||
  c.toNat = 0x2028 || c.toNat = 0x2029 || c.toNat = 0x202F || c.toNat = 0x205F ||
  c.toNat = 0x3000 || c.toNat = 0xFEFF

/-- Worker for `jsSplitWS`.  `inSep` records whether the previous character was
part of a whitespace run; `cur` is the reversed fragment being accumulated. -/
def splitGo (p : Char → Bool) : Bool → List Char → List Char → List (List Char)
  | _, cur, [] => [cur.reverse]
  | inSep, cur, c :: cs =>
    if p c then
      if inSep then splitGo p true [] cs
      else cur.reverse :: splitGo p true [] cs
    else splitGo p false (c :: cur) cs

/-- JavaScript `value.split(/\s+/)`: fragments between maximal whitespace
runs, including the empty fragments at a whitespace start or end, and the
single empty fragment for the empty string. -/
def jsSplitWS (s : String) : List String :=
  (splitGo isJsSpace false [] s.data).map fun l => ⟨l⟩

/-- `Set.add`: appends the element unless it is already a member
(JavaScript `Set` insertion order, no duplicates). -/
def addToken (l : List String) (tok : String) : List String :=
  if tok ∈ l then l else l ++ [tok]

/-- Loop body shared by `setTo` and `set`: `if ( token ) { this._set.add( token ) }`
(the truthiness test skips the empty string). -/
def addNonEmpty (l : List String) (tok : String) : List String :=
  if tok = "" then l else addToken l tok

/-- JavaScript `Array.from( set ).join( ' ' )`. -/
def joinSpace : List String → String
  | [] => ""
  | [a] => a
  | a :: rest => a ++ " " ++ joinSpace rest

/-- The `TokenList` class: its single private field `_set : Set<string>`,
embedded as the insertion-ordered list of the elements of the set. -/
structure TokenList where
  _set : List String
deriving DecidableEq

/-- `new TokenList()`. -/
def TokenList.empty : TokenList := ⟨[]⟩

/-- `get isEmpty(): boolean { return this._set.size == 0 }`. -/
def TokenList.isEmpty (t : TokenList) : Bool :=
  t._set.length == 0

/-- `get size(): number { return this._set.size }`. -/
def TokenList.size (t : TokenList) : Nat :=
  t._set.length

/-- `has( name )`. -/
def TokenList.has (t : TokenList) (name : String) : Bool :=
  t._set.contains name

/-- `keys()`: `Array.from( this._set.keys() )`. -/
def TokenList.keys (t : TokenList) : List String :=
  t._set

/-- `setTo( value )`: clears the set, then adds every truthy fragment of
`value.split( /\s+/ )`. -/
def TokenList.setTo (t : TokenList) (value : String) : TokenList :=
  ⟨(jsSplitWS value).foldl addNonEmpty []⟩

/-- `set( tokens )` (named `add` in the spec): adds every truthy token. -/
def TokenList.set (t : TokenList) (tokens : List String) : TokenList :=
  ⟨tokens.foldl addNonEmpty t._set⟩

/-- `remove( tokens )`: `this._set.delete( token )` for each token. -/
def TokenList.remove (t : TokenList) (tokens : List String) : TokenList :=
  ⟨tokens.foldl (fun l tok => l.erase tok) t._set⟩

/-- `clear()`. -/
def TokenList.clear (t : TokenList) : TokenList :=
  ⟨[]⟩

/-- `toString()`: `Array.from( this._set ).join( ' ' )`. -/
def TokenList.toString (t : TokenList) : String :=
  joinSpace t._set

/-- `isSimilar( other )`: equal sizes and every token of `this` in `other`. -/
def TokenList.isSimilar (t other : TokenList) : Bool :=
  if t.size != other.size then false
  else t.keys.all fun token => other.has token

/-- `_clone()`: a fresh instance whose `_set` is `new Set( this._set )`. -/
def TokenList._clone (t : TokenList) : TokenList :=
  ⟨t._set⟩

/-- The `patternToken` argument of `_getTokensMatch`:
`true | string | RegExp`, with a regular expression abstracted to the
predicate `token.match( patternToken )`. -/
inductive TokenPattern where
  | all : TokenPattern
  | str (s : String) : TokenPattern
  | pat (r : String → Bool) : TokenPattern

/-- The string-pattern loop of `_getTokensMatch`: pushes one pair per
fragment and returns `undefined` as soon as a fragment is not a member. -/
def matchStrGo (t : TokenList) (attributeKey : String) :
    List String → Option (List (String × String))
  | [] => some []
  | tok :: rest =>
    if t.has tok then
      match matchStrGo t attributeKey rest with
      | some l => some ((attributeKey, tok) :: l)
      | none => none
    else none

/-- `_getTokensMatch( attributeKey, patternToken )`. -/
def TokenList._getTokensMatch (t : TokenList) (attributeKey : String)
    (patternToken : TokenPattern) : Option (List (String × String)) :=
  match patternToken with
  | .all => some (t._set.map fun token => (attributeKey, token))
  | .str s => matchStrGo t attributeKey (jsSplitWS s)
  | .pat r =>
    let m := (t._set.filter r).map fun token => (attributeKey, token)
    if m.length != 0 then some m else none

/-- `_mergeFrom( other )`: adds every token of `other` that `this` lacks. -/
def TokenList._mergeFrom (t other : TokenList) : TokenList :=
  ⟨other._set.foldl addToken t._set⟩

/-- `_isMatching( other )`: every token of `other` is in `this`. -/
def TokenList._isMatching (t other : TokenList) : Bool :=
  other._set.all fun name => t.has name

example : (TokenList.empty.setTo "a b a").size = 2 := by decide
example : jsSplitWS "  a  b " = ["", "a", "b", ""] := by decide
example : jsSplitWS "" = [""] := by decide
example : jsSplitWS "   " = ["", ""] := by decide

theorem has_iff_mem (t : TokenList) (x : String) : t.has x = true ↔ x ∈ t._set := by
  simp [TokenList.has]

theorem mem_addToken {l : List String} {tok x : String} :
    x ∈ addToken l tok ↔ x ∈ l ∨ x = tok := by
  unfold addToken
  split
  · rename_i h
    constructor
    · exact fun hx => Or.inl hx
    · rintro (hx | rfl)
      · exact hx
      · exact h
  · simp

theorem addToken_nodup {l : List String} {tok : String} (h : l.Nodup) :
    (addToken l tok).Nodup := by
  unfold addToken
  split
  · exact h
  · rename_i hmem
    rw [List.nodup_append]
    refine ⟨h, List.nodup_singleton _, ?_⟩
    intro a ha hb
    rw [List.mem_singleton] at hb
    subst hb
    exact hmem ha

theorem mem_foldl_addNonEmpty (toks : List String) (acc : List String) (x : String) :
    x ∈ toks.foldl addNonEmpty acc ↔ x ∈ acc ∨ (x ∈ toks ∧ x ≠ "") := by
  induction toks generalizing acc with
  | nil => simp
  | cons tok rest ih =>
    rw [List.foldl_cons, ih]
    unfold addNonEmpty
    by_cases h : tok = ""
    · subst h
      rw [if_pos rfl]
      simp only [List.mem_cons]
      constructor
      · rintro (hx | ⟨hx, hne⟩)
        · exact Or.inl hx
        · exact Or.inr ⟨Or.inr hx, hne⟩
      · rintro (hx | ⟨(rfl | hx), hne⟩)
        · exact Or.inl hx
        · exact absurd rfl hne
        · exact Or.inr ⟨hx, hne⟩
    · rw [if_neg h]
      simp only [mem_addToken, List.mem_cons]
      constructor
      · rintro ((hx | rfl) | ⟨hx, hne⟩)
        · exact Or.inl hx
        · exact Or.inr ⟨Or.inl rfl, h⟩
        · exact Or.inr ⟨Or.inr hx, hne⟩
      · rintro (hx | ⟨(rfl | hx), hne⟩)
        · exact Or.inl (Or.inl hx)
        · exact Or.inl (Or.inr rfl)
        · exact Or.inr ⟨hx, hne⟩

theorem nodup_foldl_addNonEmpty (toks : List String) (acc : List String)
    (h : acc.Nodup) : (toks.foldl addNonEmpty acc).Nodup := by
  induction toks generalizing acc with
  | nil => exact h
  | cons tok rest ih =>
    rw [List.foldl_cons]
    apply ih
    unfold addNonEmpty
    split
    · exact h
    · exact addToken_nodup h

theorem mem_foldl_addToken (toks : List String) (acc : List String) (x : String) :
    x ∈ toks.foldl addToken acc ↔ x ∈ acc ∨ x ∈ toks := by
  induction toks generalizing acc with
  | nil => simp
  | cons tok rest ih =>
    rw [List.foldl_cons, ih]
    simp only [mem_addToken, List.mem_cons]
    constructor
    · rintro ((hx | rfl) | hx)
      · exact Or.inl hx
      · exact Or.inr (Or.inl rfl)
      · exact Or.inr (Or.inr hx)
    · rintro (hx | (rfl | hx))
      · exact Or.inl (Or.inl hx)
      · exact Or.inl (Or.inr rfl)
      · exact Or.inr hx

theorem nodup_foldl_addToken (toks : List String) (acc : List String)
    (h : acc.Nodup) : (toks.foldl addToken acc).Nodup := by
  induction toks generalizing acc with
  | nil => exact h
  | cons tok rest ih =>
    rw [List.foldl_cons]
    exact ih _ (addToken_nodup h)

theorem mem_foldl_erase (toks : List String) (acc : List String) (x : String)
    (h : x ∈ toks.foldl (fun l tok => l.erase tok) acc) : x ∈ acc := by
  induction toks generalizing acc with
  | nil => exact h
  | cons tok rest ih =>
    rw [List.foldl_cons] at h
    exact List.mem_of_mem_erase (ih _ h)

theorem nodup_foldl_erase (toks : List String) (acc : List String)
    (h : acc.Nodup) : (toks.foldl (fun l tok => l.erase tok) acc).Nodup := by
  induction toks generalizing acc with
  | nil => exact h
  | cons tok rest ih =>
    rw [List.foldl_cons]
    exact ih _ (List.Nodup.erase _ h)

theorem splitGo_chars (p : Char → Bool) (l : List Char) :
    ∀ (b : Bool) (cur : List Char), (∀ c ∈ cur, p c = false) →
      ∀ piece ∈ splitGo p b cur l, ∀ c ∈ piece, p c = false := by
  induction l with
  | nil =>
    intro b cur hcur piece hpiece c hc
    simp only [splitGo, List.mem_singleton] at hpiece
    subst hpiece
    exact hcur c (List.mem_reverse.mp hc)
  | cons d ds ih =>
    intro b cur hcur piece hpiece c hc
    simp only [splitGo] at hpiece
    by_cases hd : p d = true
    · rw [if_pos hd] at hpiece
      cases b with
      | true =>
        rw [if_pos rfl] at hpiece
        exact ih true [] (by simp) piece hpiece c hc
      | false =>
        rw [if_neg (by simp)] at hpiece
        rcases List.mem_cons.mp hpiece with rfl | hpiece
        · exact hcur c (List.mem_reverse.mp hc)
        · exact ih true [] (by simp) piece hpiece c hc
    · rw [if_neg hd] at hpiece
      rw [Bool.not_eq_true] at hd
      refine ih false (d :: cur) ?_ piece hpiece c hc
      intro e he
      rcases List.mem_cons.mp he with rfl | he
      · exact hd
      · exact hcur e he

theorem splitGo_append_of_forall (p : Char → Bool) (xs : List Char)
    (hxs : ∀ c ∈ xs, p c = false) :
    ∀ (cur rest : List Char),
      splitGo p false cur (xs ++ rest) = splitGo p false (xs.reverse ++ cur) rest := by
  induction xs with
  | nil => intro cur rest; simp
  | cons x xs ih =>
    intro cur rest
    have hx : p x = false := hxs x (List.mem_cons_self _ _)
    rw [List.cons_append]
    show (if p x = true then _ else splitGo p false (x :: cur) (xs ++ rest)) = _
    rw [if_neg (by simp [hx])]
    rw [ih (fun c hc => hxs c (List.mem_cons_of_mem _ hc)) (x :: cur) rest]
    congr 1
    simp

theorem splitGo_allspace (p : Char → Bool) (l : List Char)
    (h : ∀ c ∈ l, p c = true) :
    ∃ rest, splitGo p false [] l = [] :: rest := by
  cases l with
  | nil => exact ⟨[], rfl⟩
  | cons c cs =>
    have hc := h c (List.mem_cons_self _ _)
    refine ⟨splitGo p true [] cs, ?_⟩
    show (if p c = true then _ else _) = _
    rw [if_pos hc, if_neg (by simp)]
    rfl

theorem joinSpace_cons_data (b : String) (M : List String) :
    ∃ tl, (joinSpace (b :: M)).data = b.data ++ tl := by
  cases M with
  | nil => exact ⟨[], by simp [joinSpace]⟩
  | cons m ms =>
    refine ⟨' ' :: (joinSpace (m :: ms)).data, ?_⟩
    show (b ++ " " ++ joinSpace (m :: ms)).data = _
    rw [String.data_append, String.data_append]
    simp

theorem splitGo_joinSpace :
    ∀ (L : List String), L ≠ [] →
      (∀ a ∈ L, a.data ≠ [] ∧ ∀ c ∈ a.data, isJsSpace c = false) →
      splitGo isJsSpace false [] (joinSpace L).data = L.map String.data := by
  intro L
  induction L with
  | nil => intro hne _; exact absurd rfl hne
  | cons a M ih =>
    intro _ hgood
    have hga := hgood a (List.mem_cons_self _ _)
    cases M with
    | nil =>
      have hdj : (joinSpace [a]).data = a.data ++ [] := by simp [joinSpace]
      rw [hdj, splitGo_append_of_forall isJsSpace a.data hga.2 [] []]
      simp [splitGo]
    | cons b M' =>
      have hgb := hgood b (List.mem_cons_of_mem _ (List.mem_cons_self _ _))
      have hdata : (joinSpace (a :: b :: M')).data
          = a.data ++ (' ' :: (joinSpace (b :: M')).data) := by
        show (a ++ " " ++ joinSpace (b :: M')).data = _
        rw [String.data_append, String.data_append]
        simp
      rw [hdata, splitGo_append_of_forall isJsSpace a.data hga.2 []]
      show (if isJsSpace ' ' = true then _ else _) = _
      rw [if_pos (by decide), if_neg (by simp)]
      have hrest : splitGo isJsSpace true [] (joinSpace (b :: M')).data
          = splitGo isJsSpace false [] (joinSpace (b :: M')).data := by
        obtain ⟨tl, htl⟩ := joinSpace_cons_data b M'
        obtain ⟨d, ds, hd⟩ : ∃ d ds, b.data = d :: ds := by
          cases hb : b.data with
          | nil => exact absurd hb hgb.1
          | cons d ds => exact ⟨d, ds, rfl⟩
        have hdns : isJsSpace d = false :=
          hgb.2 d (by rw [hd]; exact List.mem_cons_self _ _)
        rw [htl, hd]
        show (if isJsSpace d = true then _ else _) = (if isJsSpace d = true then _ else _)
        rw [if_neg (by simp [hdns]), if_neg (by simp [hdns])]
      rw [hrest, ih (by simp) (fun x hx => hgood x (List.mem_cons_of_mem _ hx))]
      simp

theorem foldl_addNonEmpty_of_nodup :
    ∀ (toks : List String) (acc : List String), toks.Nodup →
      (∀ x ∈ toks, x ∉ acc ∧ x ≠ "") →
      toks.foldl addNonEmpty acc = acc ++ toks := by
  intro toks
  induction toks with
  | nil => intro acc _ _; simp
  | cons tok rest ih =>
    intro acc hnd hgood
    have htok := hgood tok (List.mem_cons_self _ _)
    have hstep : addNonEmpty acc tok = acc ++ [tok] := by
      unfold addNonEmpty addToken
      rw [if_neg htok.2, if_neg htok.1]
    have hside : ∀ x ∈ rest, x ∉ acc ++ [tok] ∧ x ≠ "" := by
      intro x hx
      have hxg := hgood x (List.mem_cons_of_mem _ hx)
      refine ⟨?_, hxg.2⟩
      simp only [List.mem_append, List.mem_singleton]
      rintro (hxa | rfl)
      · exact hxg.1 hxa
      · exact (List.nodup_cons.mp hnd).1 hx
    rw [List.foldl_cons, hstep, ih (acc ++ [tok]) (List.nodup_cons.mp hnd).2 hside]
    simp

theorem setTo_mem (t : TokenList) (v : String) (x : String) :
    x ∈ (t.setTo v)._set ↔ x ∈ jsSplitWS v ∧ x ≠ "" := by
  show x ∈ (jsSplitWS v).foldl addNonEmpty [] ↔ _
  rw [mem_foldl_addNonEmpty]
  simp

theorem setTo_nodup (t : TokenList) (v : String) : (t.setTo v)._set.Nodup :=
  nodup_foldl_addNonEmpty _ _ List.nodup_nil

theorem setTo_wsfree (t : TokenList) (v : String) (x : String)
    (hx : x ∈ (t.setTo v)._set) : ∀ c ∈ x.data, isJsSpace c = false := by
  have h := (setTo_mem t v x).mp hx
  rcases h with ⟨hmem, _⟩
  unfold jsSplitWS at hmem
  rw [List.mem_map] at hmem
  obtain ⟨piece, hpiece, rfl⟩ := hmem
  intro c hc
  exact splitGo_chars isJsSpace _ false [] (by simp) piece hpiece c hc

theorem joinSpace_parse (L : List String) (hnd : L.Nodup)
    (hne : ∀ a ∈ L, a ≠ "")
    (hws : ∀ a ∈ L, ∀ c ∈ a.data, isJsSpace c = false) :
    (TokenList.empty.setTo (joinSpace L))._set = L := by
  cases L with
  | nil => rfl
  | cons a M =>
    have hdata : ∀ x ∈ a :: M, x.data ≠ [] ∧ ∀ c ∈ x.data, isJsSpace c = false := by
      intro x hx
      refine ⟨?_, hws x hx⟩
      intro hd
      apply hne x hx
      apply String.ext
      rw [hd]
    have hsplit : jsSplitWS (joinSpace (a :: M)) = a :: M := by
      unfold jsSplitWS
      rw [splitGo_joinSpace (a :: M) (by simp) hdata, List.map_map]
      show (a :: M).map (fun x => x) = a :: M
      simp
    show (jsSplitWS (joinSpace (a :: M))).foldl addNonEmpty [] = a :: M
    rw [hsplit, foldl_addNonEmpty_of_nodup (a :: M) [] hnd
      (fun x hx => ⟨by simp, hne x hx⟩)]
    rfl

theorem dropWhile_length_le {α : Type} (q : α → Bool) (l : List α) :
    (l.dropWhile q).length ≤ l.length := by
  induction l with
  | nil => simp
  | cons a as ih =>
    rw [List.dropWhile_cons]
    split
    · exact Nat.le_trans ih (Nat.le_succ _)
    · simp

theorem dropWhile_head_false {α : Type} (q : α → Bool) (l : List α) :
    ∀ (r : α) (rs : List α), l.dropWhile q = r :: rs → q r = false := by
  induction l with
  | nil => intro r rs h; simp at h
  | cons a as ih =>
    intro r rs h
    rw [List.dropWhile_cons] at h
    by_cases hqa : q a = true
    · rw [if_pos hqa] at h
      exact ih r rs h
    · rw [if_neg hqa] at h
      injection h with h1 _
      rw [← h1]
      simp at hqa
      exact hqa

/-- The maximal runs of non-`p` characters of a character list — per the
spec, "tokens are maximal runs of non-whitespace separated by one-or-more
whitespace characters". -/
def wsWords (p : Char → Bool) (l : List Char) : List (List Char) :=
  match l with
  | [] => []
  | c :: cs =>
    if p c then wsWords p cs
    else (c :: cs.takeWhile (fun d => ! p d)) :: wsWords p (cs.dropWhile (fun d => ! p d))
termination_by l.length
decreasing_by
  · simp
  · have := dropWhile_length_le (fun d => ! p d) cs
    simp
    omega

theorem listStrongInd {α : Type} (C : List α → Prop)
    (h : ∀ l, (∀ l2, l2.length < l.length → C l2) → C l) : (l : List α) → C l
  | l => h l fun l2 hl2 => listStrongInd C h l2
termination_by l => l.length
decreasing_by exact hl2

theorem string_ne_empty_iff_data (x : String) : x ≠ "" ↔ x.data ≠ [] := by
  constructor
  · intro h hd
    apply h
    apply String.ext
    rw [hd]
  · intro h hx
    apply h
    rw [hx]

theorem filter_splitGo (p : Char → Bool) :
    ∀ l : List Char,
      ((splitGo p false [] l).filter (fun x => !x.isEmpty) = wsWords p l) ∧
      ((splitGo p true [] l).filter (fun x => !x.isEmpty) = wsWords p l) := by
  refine listStrongInd _ ?_
  intro l ih
  have h1 : (splitGo p false [] l).filter (fun x => !x.isEmpty) = wsWords p l := by
    cases l with
    | nil => simp [splitGo, wsWords]
    | cons c cs =>
      by_cases hc : p c = true
      · have hstep : splitGo p false [] (c :: cs) = [] :: splitGo p true [] cs := by
          show (if p c = true then _ else _) = _
          rw [if_pos hc, if_neg (by simp)]
          rfl
        rw [hstep, wsWords, if_pos hc, List.filter_cons]
        simp only [List.isEmpty_nil, Bool.not_true, Bool.false_eq_true, if_false]
        exact (ih cs (by simp)).2
      · have hxsall : ∀ e ∈ c :: cs.takeWhile (fun d => ! p d), p e = false := by
          intro e he
          rcases List.mem_cons.mp he with rfl | he
          · simpa using hc
          · have := List.mem_takeWhile_imp he
            simpa using this
        have hsplit : c :: cs
            = (c :: cs.takeWhile (fun d => ! p d)) ++ cs.dropWhile (fun d => ! p d) := by
          simp only [List.cons_append, List.takeWhile_append_dropWhile]
        rw [wsWords, if_neg hc]
        rw [hsplit, splitGo_append_of_forall p _ hxsall []]
        cases hrest : cs.dropWhile (fun d => ! p d) with
        | nil =>
          simp [splitGo, wsWords]
        | cons r rs =>
          have hr : p r = true := by
            have := dropWhile_head_false (fun d => ! p d) cs r rs hrest
            simpa using this
          have hstep : splitGo p false
              ((c :: cs.takeWhile (fun d => ! p d)).reverse ++ []) (r :: rs)
              = ((c :: cs.takeWhile (fun d => ! p d)).reverse ++ []).reverse ::
                  splitGo p true [] rs := by
            show (if p r = true then _ else _) = _
            rw [if_pos hr, if_neg (by simp)]
          rw [hstep, List.filter_cons]
          have hlen : rs.length < (c :: cs).length := by
            have h1 := dropWhile_length_le (fun d => ! p d) cs
            rw [hrest] at h1
            simp at h1 ⊢
            omega
          have hne : (((c :: cs.takeWhile fun d => ! p d).reverse ++ []).reverse).isEmpty
              = false := by
            simp
          rw [hne]
          simp only [Bool.not_false, if_true]
          rw [(ih rs hlen).2, wsWords, if_pos hr]
          simp
  refine ⟨h1, ?_⟩
  cases l with
  | nil => simp [splitGo, wsWords]
  | cons c cs =>
    by_cases hc : p c = true
    · have hstep : splitGo p true [] (c :: cs) = splitGo p true [] cs := by
        show (if p c = true then _ else _) = _
        rw [if_pos hc, if_pos rfl]
      rw [hstep, wsWords, if_pos hc]
      exact (ih cs (by simp)).2
    · have hstep : splitGo p true [] (c :: cs) = splitGo p false [] (c :: cs) := by
        show (if p c = true then _ else _) = (if p c = true then _ else _)
        rw [if_neg hc, if_neg hc]
      rw [hstep]
      exact h1

/-- TokenLists reachable from `new TokenList()` by any sequence of the public
operations `setTo`, `set` (named `add` in the spec), `remove`, `clear`,
`_mergeFrom` and `_clone`, where a merged-in list is itself reachable. -/
inductive Reachable : TokenList → Prop where
  | empty : Reachable TokenList.empty
  | setTo {t : TokenList} (v : String) : Reachable t → Reachable (t.setTo v)
  | set {t : TokenList} (toks : List String) : Reachable t → Reachable (t.set toks)
  | remove {t : TokenList} (toks : List String) : Reachable t → Reachable (t.remove toks)
  | clear {t : TokenList} : Reachable t → Reachable t.clear
  | mergeFrom {t u : TokenList} : Reachable t → Reachable u → Reachable (t._mergeFrom u)
  | clone {t : TokenList} : Reachable t → Reachable t._clone

/-- Like `Reachable`, but every token handed to `set` is whitespace-free
(the well-formed caller contract of the spec). -/
inductive ReachableWS : TokenList → Prop where
  | empty : ReachableWS TokenList.empty
  | setTo {t : TokenList} (v : String) : ReachableWS t → ReachableWS (t.setTo v)
  | set {t : TokenList} (toks : List String) :
      ReachableWS t → (∀ tok ∈ toks, ∀ c ∈ tok.data, isJsSpace c = false) →
      ReachableWS (t.set toks)
  | remove {t : TokenList} (toks : List String) :
      ReachableWS t → ReachableWS (t.remove toks)
  | clear {t : TokenList} : ReachableWS t → ReachableWS t.clear
  | mergeFrom {t u : TokenList} :
      ReachableWS t → ReachableWS u → ReachableWS (t._mergeFrom u)
  | clone {t : TokenList} : ReachableWS t → ReachableWS t._clone

theorem reachable_nonempty_nodup {t : TokenList} (h : Reachable t) :
    (∀ tok ∈ t._set, tok ≠ "") ∧ t._set.Nodup := by
  induction h with
  | empty => exact ⟨by simp [TokenList.empty], List.nodup_nil⟩
  | setTo v _ _ =>
    exact ⟨fun tok htok => ((setTo_mem _ _ tok).mp htok).2, setTo_nodup _ _⟩
  | set toks _ ih =>
    constructor
    · intro tok htok
      rcases (mem_foldl_addNonEmpty toks _ tok).mp htok with hacc | ⟨_, hne⟩
      · exact ih.1 tok hacc
      · exact hne
    · exact nodup_foldl_addNonEmpty _ _ ih.2
  | remove toks _ ih =>
    exact ⟨fun tok htok => ih.1 tok (mem_foldl_erase _ _ _ htok),
      nodup_foldl_erase _ _ ih.2⟩
  | clear _ _ => exact ⟨by simp [TokenList.clear], List.nodup_nil⟩
  | mergeFrom _ _ iht ihu =>
    constructor
    · intro tok htok
      rcases (mem_foldl_addToken _ _ tok).mp htok with hmem | hmem
      · exact iht.1 tok hmem
      · exact ihu.1 tok hmem
    · exact nodup_foldl_addToken _ _ iht.2
  | clone _ ih => exact ih

theorem reachableWS_wsfree {t : TokenList} (h : ReachableWS t) :
    ∀ tok ∈ t._set, ∀ c ∈ tok.data, isJsSpace c = false := by
  induction h with
  | empty => simp [TokenList.empty]
  | setTo v _ _ => exact fun tok htok => setTo_wsfree _ _ tok htok
  | set toks _ hws ih =>
    intro tok htok
    rcases (mem_foldl_addNonEmpty toks _ tok).mp htok with hacc | ⟨hmem, _⟩
    · exact ih tok hacc
    · exact hws tok hmem
  | remove toks _ ih => exact fun tok htok => ih tok (mem_foldl_erase _ _ _ htok)
  | clear _ _ => simp [TokenList.clear]
  | mergeFrom _ _ iht ihu =>
    intro tok htok
    rcases (mem_foldl_addToken _ _ tok).mp htok with hmem | hmem
    · exact iht tok hmem
    · exact ihu tok hmem
  | clone _ ih => exact ih

theorem reachableWS_reachable {t : TokenList} (h : ReachableWS t) : Reachable t := by
  induction h with
  | empty => exact Reachable.empty
  | setTo v _ ih => exact Reachable.setTo v ih
  | set toks _ _ ih => exact Reachable.set toks ih
  | remove toks _ ih => exact Reachable.remove toks ih
  | clear _ ih => exact Reachable.clear ih
  | mergeFrom _ _ iht ihu => exact Reachable.mergeFrom iht ihu
  | clone _ ih => exact Reachable.clone ih

theorem matchStrGo_eq (t : TokenList) (k : String) (frags : List String) :
    matchStrGo t k frags =
      if frags.all (fun f => t.has f) then some (frags.map fun f => (k, f))
      else none := by
  induction frags with
  | nil => rfl
  | cons f rest ih =>
    by_cases hf : t.has f = true <;>
      by_cases h2 : rest.all (fun x => t.has x) = true <;>
        simp [matchStrGo, hf, h2, ih]

theorem matchStrGo_cons_not_has (t : TokenList) (k tok : String) (rest : List String)
    (h : ¬ (t.has tok = true)) : matchStrGo t k (tok :: rest) = none := by
  unfold matchStrGo
  rw [if_neg h]

theorem isSimilar_true_iff (t u : TokenList) :
    t.isSimilar u = true ↔ t.size = u.size ∧ ∀ x ∈ t._set, x ∈ u._set := by
  unfold TokenList.isSimilar TokenList.keys
  by_cases h : t.size = u.size
  · simp [h, TokenList.has, List.all_eq_true]
  · simp [h]

theorem subset_of_subset_of_length_eq {l1 l2 : List String}
    (h1 : l1.Nodup) (h2 : l2.Nodup) (hlen : l1.length = l2.length)
    (hsub : ∀ x ∈ l1, x ∈ l2) : ∀ x ∈ l2, x ∈ l1 := by
  have hfin : l1.toFinset ⊆ l2.toFinset := by
    intro a ha
    rw [List.mem_toFinset] at ha ⊢
    exact hsub a ha
  have hcard : l2.toFinset.card ≤ l1.toFinset.card := by
    rw [List.toFinset_card_of_nodup h1, List.toFinset_card_of_nodup h2, hlen]
  have heq := Finset.eq_of_subset_of_card_le hfin hcard
  intro x hx
  rw [← List.mem_toFinset, ← heq, List.mem_toFinset] at hx
  exact hx

/-- C1 (counterexample): the claimed invariant fails as stated — `set` (named
`add` in the spec) does not validate its tokens, so the reachable list built
by calling `set` with the single token `"a b"` stores a token that contains
whitespace. -/
theorem claim1_whitespace_counterexample :
    ¬ (∀ t : TokenList, Reachable t →
        (∀ tok ∈ t._set, tok ≠ "" ∧ ∀ c ∈ tok.data, isJsSpace c = false) ∧
        t._set.Nodup) := by
  intro h
  have hr : Reachable (TokenList.empty.set ["a b"]) :=
    Reachable.set ["a b"] Reachable.empty
  have hws := ((h _ hr).1 "a b" (by decide)).2 ' ' (by decide)
  exact absurd hws (by decide)

/-- C1 (amended): every TokenList reachable from the empty list by `setTo`,
`set` (named `add` in the spec), `remove`, `clear`, `_mergeFrom` and `_clone` stores
only non-empty tokens and stores no token twice; if moreover every token
passed to `set` is whitespace-free, then every stored token is whitespace-free
as well. -/
theorem claim1_invariants :
    (∀ t : TokenList, Reachable t →
      (∀ tok ∈ t._set, tok ≠ "") ∧ t._set.Nodup) ∧
    (∀ t : TokenList, ReachableWS t →
      (∀ tok ∈ t._set, tok ≠ "" ∧ ∀ c ∈ tok.data, isJsSpace c = false) ∧
      t._set.Nodup) := by
  constructor
  · exact fun t ht => reachable_nonempty_nodup ht
  · intro t ht
    have h1 := reachable_nonempty_nodup (reachableWS_reachable ht)
    have h2 := reachableWS_wsfree ht
    exact ⟨fun tok htok => ⟨h1.1 tok htok, h2 tok htok⟩, h1.2⟩

theorem claim1_invariants_witness :
    (∀ tok ∈ (TokenList.empty.set ["x", "y"])._set, tok ≠ "") ∧
    (TokenList.empty.set ["x", "y"])._set.Nodup :=
  claim1_invariants.1 _ (Reachable.set ["x", "y"] Reachable.empty)

/-- C2: for a string pattern `p`, `_getTokensMatch k p` splits `p` on
whitespace runs; if every fragment is a stored token it returns the full list
of `(k, fragment)` pairs, and if any fragment is absent it returns
`undefined` (`none`) — never a partial list. -/
theorem claim2_string_pattern_all_or_nothing (t : TokenList) (k p : String) :
    ((∀ f ∈ jsSplitWS p, f ∈ t._set) →
      t._getTokensMatch k (.str p) = some ((jsSplitWS p).map fun f => (k, f))) ∧
    ((∃ f ∈ jsSplitWS p, f ∉ t._set) →
      t._getTokensMatch k (.str p) = none) := by
  constructor
  · intro hall
    show matchStrGo t k (jsSplitWS p) = _
    rw [matchStrGo_eq, if_pos]
    rw [List.all_eq_true]
    intro f hf
    rw [has_iff_mem]
    exact hall f hf
  · rintro ⟨f, hf, hnot⟩
    show matchStrGo t k (jsSplitWS p) = _
    rw [matchStrGo_eq, if_neg]
    rw [List.all_eq_true]
    intro hall
    exact hnot ((has_iff_mem t f).mp (hall f hf))

theorem claim2_string_pattern_witness :
    TokenList._getTokensMatch ⟨["a", "b"]⟩ "class" (.str "a b")
      = some [("class", "a"), ("class", "b")] ∧
    TokenList._getTokensMatch ⟨["a"]⟩ "class" (.str "a b") = none := by
  constructor
  · rw [(claim2_string_pattern_all_or_nothing ⟨["a", "b"]⟩ "class" "a b").1
      (by decide)]
    decide
  · exact (claim2_string_pattern_all_or_nothing ⟨["a"]⟩ "class" "a b").2
      ⟨"b", by decide, by decide⟩

/-- C3: `_getTokensMatch k true` returns one `(k, token)` pair per stored
token — the empty list, not `undefined`, on an empty TokenList — while a
regex pattern matching no stored token returns `undefined` (`none`); the two
outcomes have different shapes. -/
theorem claim3_match_all_vs_regex (t : TokenList) (k : String) (r : String → Bool)
    (hr : ∀ tok ∈ t._set, r tok = false) :
    t._getTokensMatch k .all = some (t._set.map fun tok => (k, tok)) ∧
    TokenList.empty._getTokensMatch k .all = some [] ∧
    t._getTokensMatch k (.pat r) = none ∧
    some ([] : List (String × String)) ≠ (none : Option (List (String × String))) := by
  refine ⟨rfl, rfl, ?_, by simp⟩
  have hfilter : t._set.filter r = [] := by
    rw [List.filter_eq_nil_iff]
    intro a ha
    simp [hr a ha]
  show (if ((t._set.filter r).map fun token => (k, token)).length != 0
      then some ((t._set.filter r).map fun token => (k, token)) else none) = none
  rw [hfilter]
  rfl

theorem claim3_match_all_vs_regex_witness :
    TokenList._getTokensMatch ⟨["a"]⟩ "class" .all = some [("class", "a")] ∧
    TokenList.empty._getTokensMatch "class" .all = some [] ∧
    TokenList._getTokensMatch ⟨["a"]⟩ "class" (.pat fun s => s == "zz") = none := by
  have h := claim3_match_all_vs_regex ⟨["a"]⟩ "class" (fun s => s == "zz") (by decide)
  exact ⟨h.1, h.2.1, h.2.2.1⟩

/-- C4: serialising after parsing is a fixed point — for every string `s`,
with `r = TokenList().setTo(s).toString()`, parsing `r` and serialising again
yields `r`. -/
theorem claim4_setTo_toString_fixed_point (s : String) :
    (TokenList.empty.setTo ((TokenList.empty.setTo s).toString)).toString
      = (TokenList.empty.setTo s).toString := by
  show TokenList.toString
      (TokenList.empty.setTo (joinSpace (TokenList.empty.setTo s)._set))
    = joinSpace (TokenList.empty.setTo s)._set
  show joinSpace
      (TokenList.empty.setTo (joinSpace (TokenList.empty.setTo s)._set))._set
    = joinSpace (TokenList.empty.setTo s)._set
  rw [joinSpace_parse (TokenList.empty.setTo s)._set (setTo_nodup _ _)
    (fun a ha => ((setTo_mem _ _ a).mp ha).2)
    (fun a ha => setTo_wsfree _ _ a ha)]

/-- C5: after `A._mergeFrom(B)` the tokens of `A` are exactly the union of
the former tokens of `A` and the tokens of `B` — tokens only in `A` are retained, and
duplicates are skipped (no token is stored twice when `A` had no
duplicates); the embedding is functional, so `B` itself is untouched. -/
theorem claim5_mergeFrom_union (A B : TokenList) :
    (∀ x, x ∈ (A._mergeFrom B)._set ↔ x ∈ A._set ∨ x ∈ B._set) ∧
    (A._set.Nodup → (A._mergeFrom B)._set.Nodup) := by
  constructor
  · intro x
    exact mem_foldl_addToken B._set A._set x
  · exact fun h => nodup_foldl_addToken _ _ h

theorem claim5_mergeFrom_union_witness :
    ("c" ∈ (TokenList._mergeFrom ⟨["a", "b"]⟩ ⟨["b", "c"]⟩)._set) ∧
    (TokenList._mergeFrom ⟨["a", "b"]⟩ ⟨["b", "c"]⟩)._set.Nodup := by
  constructor
  · exact ((claim5_mergeFrom_union ⟨["a", "b"]⟩ ⟨["b", "c"]⟩).1 "c").mpr
      (Or.inr (by decide))
  · exact (claim5_mergeFrom_union ⟨["a", "b"]⟩ ⟨["b", "c"]⟩).2 (by decide)

/-- C6: `setTo(value)` discards the prior contents (the result does not
depend on the receiver) and stores exactly the maximal runs of non-whitespace
characters of `value` (`wsWords`), deduplicated, with no empty tokens; in
particular `setTo` applied to `""` or to `"   "` leaves the list empty. -/
theorem claim6_setTo_parses_words (t : TokenList) (v : String) :
    (t.setTo v)._set = (TokenList.empty.setTo v)._set ∧
    (∀ x : String, x ∈ (t.setTo v)._set ↔ x.data ∈ wsWords isJsSpace v.data) ∧
    (t.setTo v)._set.Nodup ∧
    (t.setTo "").isEmpty = true ∧
    (t.setTo "   ").isEmpty = true := by
  refine ⟨rfl, ?_, setTo_nodup t v, rfl, rfl⟩
  intro x
  rw [setTo_mem]
  constructor
  · rintro ⟨hmem, hne⟩
    unfold jsSplitWS at hmem
    rw [List.mem_map] at hmem
    obtain ⟨piece, hpiece, rfl⟩ := hmem
    have hfil : piece ∈ (splitGo isJsSpace false [] v.data).filter
        (fun x => !x.isEmpty) := by
      rw [List.mem_filter]
      refine ⟨hpiece, ?_⟩
      have hpne : piece ≠ [] := by
        intro hp
        apply hne
        apply String.ext
        show piece = "".data
        rw [hp]
      simp [hpne]
    rw [(filter_splitGo isJsSpace v.data).1] at hfil
    exact hfil
  · intro hmem
    rw [← (filter_splitGo isJsSpace v.data).1, List.mem_filter] at hmem
    constructor
    · unfold jsSplitWS
      rw [List.mem_map]
      exact ⟨x.data, hmem.1, rfl⟩
    · rw [string_ne_empty_iff_data]
      intro hd
      rw [hd] at hmem
      simp at hmem

/-- C7: `isSimilar` is reflexive; for two duplicate-free TokenLists of equal
size it is symmetric; and two TokenLists of equal non-zero size with disjoint
token sets are not similar. -/
theorem claim7_isSimilar_properties (t u : TokenList) :
    (t.isSimilar t = true) ∧
    (t._set.Nodup → u._set.Nodup → t.size = u.size →
      t.isSimilar u = u.isSimilar t) ∧
    (t.size = u.size → t.size ≠ 0 → (∀ x ∈ t._set, x ∉ u._set) →
      t.isSimilar u = false) := by
  refine ⟨?_, ?_, ?_⟩
  · rw [isSimilar_true_iff]
    exact ⟨rfl, fun x hx => hx⟩
  · intro hnt hnu hsize
    rw [Bool.eq_iff_iff, isSimilar_true_iff, isSimilar_true_iff]
    constructor
    · rintro ⟨_, hsub⟩
      exact ⟨hsize.symm, subset_of_subset_of_length_eq hnt hnu hsize hsub⟩
    · rintro ⟨_, hsub⟩
      exact ⟨hsize, subset_of_subset_of_length_eq hnu hnt hsize.symm hsub⟩
  · intro hsize hnz hdisj
    obtain ⟨a, ha⟩ : ∃ a, a ∈ t._set := by
      cases ht : t._set with
      | nil =>
        exfalso
        apply hnz
        show t._set.length = 0
        rw [ht]
        rfl
      | cons a as => exact ⟨a, List.mem_cons_self _ _⟩
    apply Bool.eq_false_iff.mpr
    intro htrue
    rw [isSimilar_true_iff] at htrue
    exact hdisj a ha (htrue.2 a ha)

theorem claim7_isSimilar_properties_witness :
    (TokenList.isSimilar ⟨["a", "b"]⟩ ⟨["b", "a"]⟩
      = TokenList.isSimilar ⟨["b", "a"]⟩ ⟨["a", "b"]⟩) ∧
    TokenList.isSimilar ⟨["a", "b"]⟩ ⟨["c", "d"]⟩ = false := by
  constructor
  · exact (claim7_isSimilar_properties ⟨["a", "b"]⟩ ⟨["b", "a"]⟩).2.1
      (by decide) (by decide) (by decide)
  · exact (claim7_isSimilar_properties ⟨["a", "b"]⟩ ⟨["c", "d"]⟩).2.2
      (by decide) (by decide) (by decide)

/-- C8: `A._isMatching(B)` is true exactly when every token of `B` exists in
`A` (direction other→this): an empty `B` matches any `A`, and a `B` holding a
token absent from `A` does not match. -/
theorem claim8_isMatching_subset (A B : TokenList) :
    (A._isMatching B = true ↔ ∀ x ∈ B._set, x ∈ A._set) ∧
    (A._isMatching TokenList.empty = true) ∧
    (∀ x, x ∈ B._set → x ∉ A._set → A._isMatching B = false) := by
  have hiff : A._isMatching B = true ↔ ∀ x ∈ B._set, x ∈ A._set := by
    unfold TokenList._isMatching
    rw [List.all_eq_true]
    constructor
    · intro h x hx
      have hx2 := h x hx
      rwa [has_iff_mem] at hx2
    · intro h x hx
      rw [has_iff_mem]
      exact h x hx
  refine ⟨hiff, rfl, ?_⟩
  intro x hx hnx
  apply Bool.eq_false_iff.mpr
  intro htrue
  exact hnx (hiff.mp htrue x hx)

theorem claim8_isMatching_subset_witness :
    (TokenList._isMatching ⟨["a"]⟩ ⟨["a", "b"]⟩ = false) ∧
    (TokenList._isMatching ⟨["a"]⟩ TokenList.empty = true) := by
  constructor
  · exact (claim8_isMatching_subset ⟨["a"]⟩ ⟨["a", "b"]⟩).2.2 "b"
      (by decide) (by decide)
  · exact (claim8_isMatching_subset ⟨["a"]⟩ TokenList.empty).2.1

/-- C9: from the empty TokenList, `set` with `["x", "y"]` followed by
`remove` of `"x"` leaves exactly one token: size 1, `has "y"` is true and
`has "x"` is false (both operations are total functions in the embedding —
no error is possible). -/
theorem claim9_add_then_remove :
    ((TokenList.empty.set ["x", "y"]).remove ["x"]).size = 1 ∧
    ((TokenList.empty.set ["x", "y"]).remove ["x"]).has "y" = true ∧
    ((TokenList.empty.set ["x", "y"]).remove ["x"]).has "x" = false := by
  decide

/-- C10: a string pattern that is empty or whitespace-only always yields the
no-match signal (`none`), even against a non-empty TokenList whose stored
tokens are all non-empty: splitting such a pattern yields an empty fragment,
which is never a stored token. -/
theorem claim10_blank_pattern_never_matches (t : TokenList) (k p : String)
    (hempty : "" ∉ t._set) (hws : ∀ c ∈ p.data, isJsSpace c = true) :
    t._getTokensMatch k (.str p) = none := by
  obtain ⟨rest, hrest⟩ := splitGo_allspace isJsSpace p.data hws
  show matchStrGo t k (jsSplitWS p) = none
  unfold jsSplitWS
  rw [hrest, List.map_cons]
  apply matchStrGo_cons_not_has
  rw [has_iff_mem]
  exact hempty

theorem claim10_blank_pattern_witness :
    TokenList._getTokensMatch ⟨["a"]⟩ "class" (.str " ") = none ∧
    TokenList._getTokensMatch ⟨["a"]⟩ "class" (.str "") = none := by
  constructor
  · exact claim10_blank_pattern_never_matches ⟨["a"]⟩ "class" " "
      (by decide) (by decide)
  · exact claim10_blank_pattern_never_matches ⟨["a"]⟩ "class" ""
      (by decide) (by decide)
